import Mathlib

/-!
Verification development for the shfs/vsh shell-compiler repository.

The definitions below are shallow embeddings of the TypeScript sources:
streaming operators (`tail`, `touch`) from the vsh package, the compiler
IR helpers (`ExpandedWord`, `extractPathsFromExpandedWords`), the command
handler registries, the `rm` V2 handler, the lexer (`Scanner`), and the
parser's command-substitution depth bound.  Theorems at the end settle
the specification claims against these embeddings.
-/

namespace Shfs

namespace Vsh

/-- One step of the `tail` buffer loop from
`packages/vsh/src/operator/tail/tail.ts`: push the incoming record onto
the buffer, then evict the oldest record when the buffer has grown past
`n` (TS: `buf.push(x); if (buf.length > n) buf.shift();`).  The count `n`
is an arbitrary JavaScript number, modelled as an integer. -/
def tailStep (n : Int) (buf : List α) (x : α) : List α :=
  let b := buf ++ [x]
  if (b.length : Int) > n then b.tail else b

/-- The `tail(n)` transducer run over a finite input sequence: fold the
buffer step over the whole input, then yield the retained buffer
(TS: `for await (const x of input) ...; yield* buf;`). -/
def tailRun (n : Int) (xs : List α) : List α :=
  xs.foldl (tailStep n) []

/-- The same buffer step with the count already clamped to a natural
number; used to reason about `tailStep` uniformly. -/
def tailStepNat (m : Nat) (buf : List α) (x : α) : List α :=
  let b := buf ++ [x]
  if m < b.length then b.tail else b

theorem tailStep_eq_nat (n : Int) (buf : List α) (x : α) :
    tailStep n buf x = tailStepNat n.toNat buf x := by
  unfold tailStep tailStepNat
  have h : ((buf ++ [x]).length : Int) > n ↔ n.toNat < (buf ++ [x]).length := by
    have hl : 1 ≤ (buf ++ [x]).length := by simp
    omega
  exact if_congr h rfl rfl

theorem tailRunNat_drop (m : Nat) :
    ∀ (xs buf : List α), buf.length ≤ m →
      xs.foldl (tailStepNat m) buf = (buf ++ xs).drop (buf.length + xs.length - m) := by
  intro xs
  induction xs with
  | nil =>
      intro buf h
      simp [Nat.sub_eq_zero_of_le h]
  | cons x rest ih =>
      intro buf h
      rw [List.foldl_cons]
      by_cases hc : m < (buf ++ [x]).length
      · have hlen : buf.length = m := by
          simp at hc
          omega
        have hstep : tailStepNat m buf x = (buf ++ [x]).tail := by
          simp only [tailStepNat]
          rw [if_pos hc]
        rw [hstep]
        cases buf with
        | nil =>
            have hm : m = 0 := by simpa using hlen.symm
            subst hm
            rw [ih _ (by simp)]
            simp [List.drop_eq_nil_of_le]
        | cons c buf2 =>
            have htail : ((c :: buf2) ++ [x]).tail = buf2 ++ [x] := by simp
            rw [htail, ih (buf2 ++ [x]) (by simp at hlen ⊢; omega)]
            have hidx : (buf2 ++ [x]).length + rest.length - m = rest.length := by
              simp at hlen ⊢
              omega
            have hidx2 : (c :: buf2).length + (x :: rest).length - m = rest.length + 1 := by
              simp at hlen ⊢
              omega
            rw [hidx, hidx2]
            have hshape : (c :: buf2) ++ x :: rest = c :: (buf2 ++ x :: rest) := by simp
            rw [hshape, List.drop_succ_cons]
            have : (buf2 ++ [x]) ++ rest = buf2 ++ x :: rest := by simp
            rw [this]
      · have hstep : tailStepNat m buf x = buf ++ [x] := by
          simp only [tailStepNat]
          rw [if_neg hc]
        have hlt : (buf ++ [x]).length ≤ m := by omega
        rw [hstep, ih (buf ++ [x]) hlt]
        have h1 : (buf ++ [x]) ++ rest = buf ++ x :: rest := by simp
        have h2 : (buf ++ [x]).length + rest.length = buf.length + (x :: rest).length := by
          simp
          omega
        rw [h1, h2]

theorem tailRun_drop (n : Int) (xs : List α) :
    tailRun n xs = xs.drop (xs.length - n.toNat) := by
  have hfold : xs.foldl (tailStep n) ([] : List α) = xs.foldl (tailStepNat n.toNat) [] := by
    apply List.foldl_ext
    intro b x _
    exact tailStep_eq_nat n b x
  have := tailRunNat_drop (α := α) n.toNat xs [] (by simp)
  simpa [tailRun, hfold] using this

/-- The `touch` effect from the vsh operator (part of the repository's
unnamed sources): for each listed file, create it with empty content when
it does not already exist, and leave it alone when it does
(TS: `if (!(await fs.exists(file))) await fs.writeFile(file, new Uint8Array());`).
The filesystem is modelled extensionally as a map from paths to optional
byte contents. -/
abbrev Bytes := List Nat

abbrev Fs := String → Option Bytes

/-- `fs.exists(path)` of the filesystem capability. -/
def fsExists (fs : Fs) (p : String) : Bool :=
  (fs p).isSome

/-- `fs.writeFile(path, bytes)` of the filesystem capability. -/
def writeFile (fs : Fs) (p : String) (b : Bytes) : Fs :=
  fun q => if q = p then some b else fs q

/-- The `touch` operator body: iterate over the file list in order,
creating each missing file with empty content. -/
def touch (files : List String) (fs : Fs) : Fs :=
  files.foldl (fun acc f => if fsExists acc f then acc else writeFile acc f []) fs

theorem touch_spec (files : List String) :
    ∀ fs : Fs,
      (∀ p, (fs p).isSome → touch files fs p = fs p) ∧
      (∀ p, p ∈ files → fs p = none → touch files fs p = some []) ∧
      (∀ p, p ∉ files → touch files fs p = fs p) := by
  induction files with
  | nil =>
      intro fs
      refine ⟨fun p _ => rfl, fun p hp => absurd hp (by simp), fun p _ => rfl⟩
  | cons f rest ih =>
      intro fs
      by_cases hf : fsExists fs f
      · have hstep : touch (f :: rest) fs = touch rest fs := by
          simp [touch, hf]
        refine ⟨?_, ?_, ?_⟩
        · intro p hp
          rw [hstep]
          exact (ih fs).1 p hp
        · intro p hp hnone
          rw [hstep]
          rcases List.mem_cons.mp hp with rfl | hmem
          · simp [fsExists, hnone] at hf
          · exact (ih fs).2.1 p hmem hnone
        · intro p hp
          rw [hstep]
          exact (ih fs).2.2 p (fun hm => hp (List.mem_cons_of_mem _ hm))
      · have hstep : touch (f :: rest) fs = touch rest (writeFile fs f []) := by
          simp [touch, hf]
        have hwf : ∀ p, p ≠ f → writeFile fs f [] p = fs p := by
          intro p hp
          simp [writeFile, hp]
        refine ⟨?_, ?_, ?_⟩
        · intro p hp
          rw [hstep]
          have hpf : p ≠ f := by
            rintro rfl
            simp [fsExists, Option.isSome_iff_exists] at hf hp
            rcases hp with ⟨b, hb⟩
            exact hf b hb
          have : (writeFile fs f [] p).isSome := by rw [hwf p hpf]; exact hp
          rw [(ih (writeFile fs f [])).1 p this, hwf p hpf]
        · intro p hp hnone
          rw [hstep]
          by_cases hpf : p = f
          · have hsome : (writeFile fs f [] p).isSome := by simp [writeFile, hpf]
            have hval : writeFile fs f [] p = some [] := by simp [writeFile, hpf]
            rw [(ih (writeFile fs f [])).1 p hsome, hval]
          · rcases List.mem_cons.mp hp with rfl | hmem
            · exact absurd rfl hpf
            · have h0 : writeFile fs f [] p = none := by rw [hwf p hpf]; exact hnone
              exact (ih (writeFile fs f [])).2.1 p hmem h0
        · intro p hp
          rw [hstep]
          have hpf : p ≠ f := fun h => hp (h ▸ List.mem_cons_self _ _)
          have hrest : p ∉ rest := fun hm => hp (List.mem_cons_of_mem _ hm)
          rw [(ih (writeFile fs f [])).2.2 p hrest, hwf p hpf]

end Vsh

namespace Compiler

/-- `ExpandedWord` from `packages/compiler/src/ir.ts`: one argument or
name after partial resolution.  Globs carry their pattern and the
resolved match list (empty until execution); command substitutions carry
their source text and captured output lines. -/
inductive ExpandedWord where
  | literal (value : String)
  | glob (pattern : String) (expanded : List String)
  | commandSub (command : String) (output : List String)
deriving DecidableEq

/-- The redirection kind of `RedirectionIR` in `ir.ts`. -/
inductive RedirKind where
  | input
  | output
deriving DecidableEq

/-- `RedirectionIR` from `ir.ts`. -/
structure RedirectionIR where
  kind : RedirKind
  target : ExpandedWord
deriving DecidableEq

/-- `SimpleCommandIR` from `ir.ts`. -/
structure SimpleCommandIR where
  name : ExpandedWord
  args : List ExpandedWord
  redirections : List RedirectionIR
deriving DecidableEq

/-- `StepIRV2` from `ir.ts`: the enhanced per-command step union. -/
inductive StepIRV2 where
  | cat (files : List ExpandedWord) (numberLines numberNonBlank squeezeBlank showEnds
      showTabs showAll showNonprinting : Bool)
  | cp (srcs : List ExpandedWord) (dest : ExpandedWord) (recursive : Bool)
  | head (n : Int) (files : List ExpandedWord)
  | ls (paths : List ExpandedWord)
  | mkdir (paths : List ExpandedWord) (recursive : Bool)
  | mv (srcs : List ExpandedWord) (dest : ExpandedWord)
  | rm (paths : List ExpandedWord) (recursive : Bool)
  | tail (n : Int) (files : List ExpandedWord)
  | touch (files : List ExpandedWord)
deriving DecidableEq

/-- `expandedWordToString` from `ir.ts`: the compile-time string value of
a word — the literal value, the glob pattern, or the substitution source
text.  Never the runtime-resolved lists. -/
def expandedWordToString : ExpandedWord → String
  | .literal v => v
  | .glob p _ => p
  | .commandSub c _ => c

/-- `extractPathsFromExpandedWords` from `ir.ts`: flatten words to path
strings; a glob contributes its resolved matches when non-empty and
otherwise its literal pattern text; a substitution contributes its
captured output lines. -/
def extractPathsFromExpandedWords (words : List ExpandedWord) : List String :=
  words.flatMap fun w =>
    match w with
    | .literal v => [v]
    | .glob p e => if e.length > 0 then e else [p]
    | .commandSub _ o => o

/-- The argument-classification loop of `compileRmV2`
(`packages/compiler/src/compile/command/rm/rm-v2.ts`): `-r` sets the
recursive flag, `-f` and `-i` are dropped, everything else (compared by
its compile-time string) is kept as a path operand, in order. -/
def rmClassify : List ExpandedWord → Bool → List ExpandedWord → Bool × List ExpandedWord
  | [], recursive, paths => (recursive, paths)
  | a :: rest, recursive, paths =>
    let s := expandedWordToString a
    if s = "-r" then rmClassify rest true paths
    else if s ≠ "-f" ∧ s ≠ "-i" then rmClassify rest recursive (paths ++ [a])
    else rmClassify rest recursive paths

/-- `compileRmV2` from `rm-v2.ts`: classify the arguments and fail at
compile time when no path operand remains. -/
def compileRmV2 (cmd : SimpleCommandIR) : Except String StepIRV2 :=
  let c := rmClassify cmd.args false []
  if c.2 = [] then .error "rm requires at least one path"
  else .ok (.rm c.2 c.1)

/-- Identifiers of the handler functions registered in the V2 registry
(`CommandHandlerV2.handlers` in the command handler registry module):
`cat, cp, head, ls, mkdir, mv, rm, tail, touch`. -/
inductive HandlerV2Id where
  | cat | cp | head | ls | mkdir | mv | rm | tail | touch
deriving DecidableEq

/-- Identifiers of the handler functions registered in the legacy
string-based registry (`CommandHandler.handlers` in
`packages/compiler/src/compile/command/handler.ts`):
`cat, cp, ls, pwd, rm, tail`. -/
inductive HandlerV1Id where
  | cat | cp | ls | pwd | rm | tail
deriving DecidableEq

/-- The V2 handler registry, keyed by command name, exactly as assembled
in `CommandHandlerV2`. -/
def handlersV2 : List (String × HandlerV2Id) :=
  [("cat", .cat), ("cp", .cp), ("head", .head), ("ls", .ls), ("mkdir", .mkdir),
   ("mv", .mv), ("rm", .rm), ("tail", .tail), ("touch", .touch)]

/-- The legacy handler registry, keyed by command name, exactly as
assembled in `CommandHandler`. -/
def handlersV1 : List (String × HandlerV1Id) :=
  [("cat", .cat), ("cp", .cp), ("ls", .ls), ("pwd", .pwd), ("rm", .rm), ("tail", .tail)]

/-- `CommandHandlerV2.get`: look a name up in the V2 registry, raising
the unknown-command error when absent. -/
def getV2 (name : String) : Except String HandlerV2Id :=
  match handlersV2.lookup name with
  | some h => .ok h
  | none => .error ("Unknown command: " ++ name)

/-- `CommandHandlerV2.has`: whether a V2 handler exists for a name. -/
def hasV2 (name : String) : Bool :=
  (handlersV2.lookup name).isSome

/-- `CommandHandler.get` of the legacy registry. -/
def getV1 (name : String) : Except String HandlerV1Id :=
  match handlersV1.lookup name with
  | some h => .ok h
  | none => .error ("Unknown command: " ++ name)

/-- Membership in the legacy registry. -/
def hasV1 (name : String) : Bool :=
  (handlersV1.lookup name).isSome

/-- A word and a re-resolution of the same word: identical compile-time
content (same variant, same literal value / glob pattern / substitution
source text), while the execution-time result lists (`expanded`,
`output`) may differ arbitrarily. -/
inductive Reresolves : ExpandedWord → ExpandedWord → Prop
  | literal (v : String) : Reresolves (.literal v) (.literal v)
  | glob (p : String) (e e2 : List String) : Reresolves (.glob p e) (.glob p e2)
  | commandSub (c : String) (o o2 : List String) :
      Reresolves (.commandSub c o) (.commandSub c o2)

theorem Reresolves.string_eq {w w2 : ExpandedWord} (h : Reresolves w w2) :
    expandedWordToString w = expandedWordToString w2 := by
  cases h <;> rfl

theorem rmClassify_congr :
    ∀ {args args2 : List ExpandedWord}, List.Forall₂ Reresolves args args2 →
      ∀ (recursive : Bool) {paths paths2 : List ExpandedWord},
        List.Forall₂ Reresolves paths paths2 →
        (rmClassify args recursive paths).1 = (rmClassify args2 recursive paths2).1 ∧
        List.Forall₂ Reresolves (rmClassify args recursive paths).2
          (rmClassify args2 recursive paths2).2 := by
  intro args args2 h
  induction h with
  | nil =>
      intro recursive paths paths2 hp
      exact ⟨rfl, hp⟩
  | cons ha hrest ih =>
      intro recursive paths paths2 hp
      rename_i a a2 l1 l2
      have hs := ha.string_eq
      simp only [rmClassify, ← hs]
      by_cases h1 : expandedWordToString a = "-r"
      · simp only [h1, if_pos rfl]
        exact ih true hp
      · rw [if_neg h1, if_neg h1]
        by_cases h2 : expandedWordToString a ≠ "-f" ∧ expandedWordToString a ≠ "-i"
        · rw [if_pos h2, if_pos h2]
          exact ih recursive (List.rel_append hp (List.Forall₂.cons ha List.Forall₂.nil))
        · rw [if_neg h2, if_neg h2]
          exact ih recursive hp

end Compiler

namespace Lexer

/-- The NUL sentinel `'\0'` used by `StringSourceReader` for end-of-input
peeks and recognized by the scanner. -/
def nulChar : Char := Char.ofNat 0

/-- The single-quote character. -/
def squote : Char := Char.ofNat 39

/-- `SourcePosition` from the lexer: line and column start at 1, offset
at 0; advancing over a newline moves to column 1 of the next line. -/
structure Pos where
  line : Nat
  column : Nat
  offset : Nat
deriving DecidableEq

/-- `SourcePosition.ZERO` / the initial reader position. -/
def Pos.zero : Pos := ⟨1, 1, 0⟩

/-- `StringSourceReader.advance` position bookkeeping for one character. -/
def Pos.advance (p : Pos) (c : Char) : Pos :=
  if c = '\n' then ⟨p.line + 1, 1, p.offset + 1⟩
  else ⟨p.line, p.column + 1, p.offset + 1⟩

/-- Advance a position over a sequence of consumed characters. -/
def Pos.advanceMany (p : Pos) (cs : List Char) : Pos :=
  cs.foldl Pos.advance p

/-- The prefix of `l` consumed by a scan that left `r` as the remaining
input (every scanner helper consumes from the front). -/
def consumedBy (l r : List Char) : List Char :=
  l.take (l.length - r.length)

/-- `TokenKind` from `packages/compiler/src/lexer/token.ts`. -/
inductive TokenKind where
  | eof | err | newline | comment | word | name | number
  | pipe | lparen | rparen | less | great | commandSub | glob
deriving DecidableEq

/-- `TokenFlagsObject` from `token.ts`. -/
structure TokenFlags where
  quoted : Bool
  singleQuoted : Bool
  doubleQuoted : Bool
  containsExpansion : Bool
  containsGlob : Bool
deriving DecidableEq

/-- `createEmptyFlags()` from `token.ts`. -/
def emptyFlags : TokenFlags := ⟨false, false, false, false, false⟩

/-- `mergeFlags` from `scanner.ts`: pointwise disjunction. -/
def mergeFlags (a b : TokenFlags) : TokenFlags :=
  ⟨a.quoted || b.quoted, a.singleQuoted || b.singleQuoted,
   a.doubleQuoted || b.doubleQuoted, a.containsExpansion || b.containsExpansion,
   a.containsGlob || b.containsGlob⟩

/-- Flags set by an opening single quote. -/
def flagsSingle : TokenFlags := ⟨true, true, false, false, false⟩

/-- Flags set by an opening double quote. -/
def flagsDouble : TokenFlags := ⟨true, false, true, false, false⟩

/-- Flags set by a command substitution capture. -/
def flagsExpansion : TokenFlags := ⟨false, false, false, true, false⟩

/-- Flags set by a glob character or character class. -/
def flagsGlob : TokenFlags := ⟨false, false, false, false, true⟩

/-- `Token` from `token.ts`: kind, spelling, source span and flags. -/
structure Token where
  kind : TokenKind
  spelling : String
  start : Pos
  stop : Pos
  flags : TokenFlags
deriving DecidableEq

/-- `LexerState` from the lexer context module. -/
inductive LexState where
  | normal | singleQuoted | doubleQuoted | commandSubState
deriving DecidableEq

/-- `StateContext.current`: top of the state stack (head of the list),
`NORMAL` when empty. -/
def currentState (stack : List LexState) : LexState :=
  stack.headD .normal

/-- `StateContext.pop`: remove the top state but never pop the last
stack entry. -/
def popState (stack : List LexState) : List LexState :=
  if stack.length > 1 then stack.tail else stack

/-- `StateContext.inQuotes`. -/
def inQuotes (stack : List LexState) : Bool :=
  currentState stack = LexState.singleQuoted || currentState stack = LexState.doubleQuoted

/-- `StateContext.inSingleQuote`. -/
def inSingle (stack : List LexState) : Bool :=
  currentState stack = LexState.singleQuoted

/-- `StateContext.inDoubleQuote`. -/
def inDouble (stack : List LexState) : Bool :=
  currentState stack = LexState.doubleQuoted

/-- `isSpecialChar` from `scanner.ts`: the characters that break the
fast scanning path. -/
def isSpecialChar (c : Char) : Bool :=
  decide (c = ' ' ∨ c = '\t' ∨ c = '\n' ∨ c = '|' ∨ c = '<' ∨ c = '>' ∨ c = '(' ∨
    c = ')' ∨ c = '"' ∨ c = squote ∨ c = '\\' ∨ c = '*' ∨ c = '?' ∨ c = '[' ∨ c = '#')

/-- `isWordBoundary` from `scanner.ts`: `WORD_BOUNDARY_CHARS` plus the
NUL sentinel. -/
def isWordBoundary (c : Char) : Bool :=
  decide (c = ' ' ∨ c = '\t' ∨ c = '\n' ∨ c = '|' ∨ c = '<' ∨ c = '>' ∨ c = '(' ∨
    c = ')' ∨ c = nulChar)

/-- `Scanner.skipWhitespace`: drop spaces, tabs, and backslash–newline
line continuations before a token. -/
def skipWs : List Char → List Char
  | [] => []
  | c :: rest =>
    if c = ' ' ∨ c = '\t' then skipWs rest
    else if c = '\\' then
      match rest with
      | '\n' :: rest2 => skipWs rest2
      | _ => c :: rest
    else c :: rest

/-- `Scanner.readComment`: consume up to (excluding) the next newline;
returns the consumed spelling and the remaining input. -/
def readComment : List Char → List Char × List Char
  | [] => ([], [])
  | c :: rest =>
    if c = '\n' then ([], c :: rest)
    else
      let s := readComment rest
      (c :: s.1, s.2)

/-- The fast-path scan loop: greedily take characters up to the first
special character. -/
def takeNonSpecial : List Char → List Char × List Char
  | [] => ([], [])
  | c :: rest =>
    if isSpecialChar c then ([], c :: rest)
    else
      let s := takeNonSpecial rest
      (c :: s.1, s.2)

/-- `Scanner.tryFastPath`: succeed only when the scan consumed at least
one character and stopped exactly at a word boundary (or end of input,
where the reader peeks the NUL sentinel). -/
def tryFastPath (l : List Char) : Option (List Char × List Char) :=
  let s := takeNonSpecial l
  if s.1 = [] then none
  else
    match s.2 with
    | [] => some s
    | c :: _ => if isWordBoundary c then some s else none

/-- `NUMBER_PATTERN` (`^[0-9]+$`). -/
def matchesNumber (l : List Char) : Bool :=
  match l with
  | [] => false
  | _ => l.all Char.isDigit

/-- A character allowed to start a `NAME` (`[a-zA-Z_]`). -/
def isNameStart (c : Char) : Bool :=
  c.isAlpha || c = '_'

/-- A character allowed inside a `NAME` (`[a-zA-Z0-9_-]`). -/
def isNameRest (c : Char) : Bool :=
  c.isAlphanum || c = '_' || c = '-'

/-- `NAME_PATTERN` (`^[a-zA-Z_][a-zA-Z0-9_-]*$`). -/
def matchesName : List Char → Bool
  | [] => false
  | c :: rest => isNameStart c && rest.all isNameRest

/-- `Scanner.classifyWord` kind selection: number, then name, then
generic word. -/
def classifyKind (sp : List Char) : TokenKind :=
  if matchesNumber sp then .number
  else if matchesName sp then .name
  else .word

/-- The scan loop of `Scanner.skipQuotedContent` after the opening quote
has been consumed: copy characters until the closing quote, treating a
backslash inside double quotes as consuming the following character as
well.  Returns the consumed characters and the rest (stopped at the
closing quote or at end of input). -/
def skipQuotedAux (q : Char) : List Char → List Char × List Char
  | [] => ([], [])
  | c :: rest =>
    if c = q then ([], c :: rest)
    else if c = '\\' ∧ q = '"' then
      match rest with
      | [] => ([c], [])
      | d :: rest2 =>
        let s := skipQuotedAux q rest2
        (c :: d :: s.1, s.2)
    else
      let s := skipQuotedAux q rest
      (c :: s.1, s.2)

/-- `Scanner.skipQuotedContent`: consume the opening quote, the quoted
body, and the closing quote when present. -/
def skipQuotedContent (q : Char) (l : List Char) : List Char × List Char :=
  match l with
  | [] => ([], [])
  | c :: rest =>
    let s := skipQuotedAux q rest
    match s.2 with
    | d :: r2 => if d = q then (c :: s.1 ++ [d], r2) else (c :: s.1, s.2)
    | [] => (c :: s.1, [])

/-- The depth-counted loop of `Scanner.readCommandSubstitution`:
raw capture of balanced parentheses, skipping quoted regions and
backslash pairs.  Fuelled; `none` marks fuel exhaustion and is proved
unreachable below for sufficient fuel. -/
def readCmdSubAux : Nat → Nat → List Char → Option (List Char × List Char)
  | 0, _, _ => none
  | f + 1, depth, l =>
    if depth = 0 then some ([], l)
    else
      match l with
      | [] => some ([], [])
      | c :: rest =>
        if c = '(' then
          match readCmdSubAux f (depth + 1) rest with
          | some (s, r) => some (c :: s, r)
          | none => none
        else if c = ')' then
          match readCmdSubAux f (depth - 1) rest with
          | some (s, r) => some (c :: s, r)
          | none => none
        else if c = squote ∨ c = '"' then
          let q := skipQuotedContent c (c :: rest)
          match readCmdSubAux f depth q.2 with
          | some (s, r) => some (q.1 ++ s, r)
          | none => none
        else if c = '\\' then
          match rest with
          | [] =>
            match readCmdSubAux f depth ([] : List Char) with
            | some (s, r) => some (c :: s, r)
            | none => none
          | d :: rest2 =>
            match readCmdSubAux f depth rest2 with
            | some (s, r) => some (c :: d :: s, r)
            | none => none
        else
          match readCmdSubAux f depth rest with
          | some (s, r) => some (c :: s, r)
          | none => none

theorem skipQuotedAux_len (q : Char) :
    ∀ l : List Char, (skipQuotedAux q l).2.length ≤ l.length := by
  intro l
  generalize hn : l.length = n
  induction n using Nat.strong_induction_on generalizing l with
  | _ n ih =>
    subst hn
    match l with
    | [] => simp [skipQuotedAux]
    | c :: rest =>
      rw [skipQuotedAux.eq_def]
      dsimp only
      split_ifs with h1 h2
      · simp
      · match rest with
        | [] => simp
        | d :: rest2 =>
          have := ih rest2.length (by simp; omega) rest2 rfl
          simp
          omega
      · have := ih rest.length (by simp) rest rfl
        simp
        omega

theorem skipQuotedContent_len (q c : Char) (rest : List Char) :
    (skipQuotedContent q (c :: rest)).2.length ≤ rest.length := by
  simp only [skipQuotedContent]
  have h := skipQuotedAux_len q rest
  split
  · rename_i d r2 heq
    split_ifs
    · have : (skipQuotedAux q rest).2.length = r2.length + 1 := by rw [heq]; simp
      simp
      omega
    · simpa [heq] using h
  · simp

theorem readCmdSubAux_isSome :
    ∀ (f : Nat) (l : List Char), l.length < f → ∀ depth, (readCmdSubAux f depth l).isSome := by
  intro f
  induction f with
  | zero => intro l h; omega
  | succ f ih =>
    intro l hl depth
    simp only [readCmdSubAux]
    split_ifs with h0
    · simp
    · match l with
      | [] => simp
      | c :: rest =>
        have hrest : rest.length < f := by simp at hl; omega
        simp only
        split_ifs with h1 h2 h3 h4
        · have := ih rest hrest (depth + 1)
          obtain ⟨v, hv⟩ := Option.isSome_iff_exists.mp this
          simp [hv]
        · have := ih rest hrest (depth - 1)
          obtain ⟨v, hv⟩ := Option.isSome_iff_exists.mp this
          simp [hv]
        · have hq := skipQuotedContent_len c c rest
          have : (skipQuotedContent c (c :: rest)).2.length < f := by omega
          have := ih _ this depth
          obtain ⟨v, hv⟩ := Option.isSome_iff_exists.mp this
          simp [hv]
        · match rest with
          | [] =>
            have : ([] : List Char).length < f := by simp; omega
            have := ih [] this depth
            obtain ⟨v, hv⟩ := Option.isSome_iff_exists.mp this
            simp [hv]
          | d :: rest2 =>
            have : rest2.length < f := by simp at hl; omega
            have := ih rest2 this depth
            obtain ⟨v, hv⟩ := Option.isSome_iff_exists.mp this
            simp [hv]
        · have := ih rest hrest depth
          obtain ⟨v, hv⟩ := Option.isSome_iff_exists.mp this
          simp [hv]

theorem readCmdSubAux_len :
    ∀ (f depth : Nat) (l s r : List Char),
      readCmdSubAux f depth l = some (s, r) → r.length ≤ l.length := by
  intro f
  induction f with
  | zero => intro depth l s r h; simp [readCmdSubAux] at h
  | succ f ih =>
    intro depth l s r h
    simp only [readCmdSubAux] at h
    split_ifs at h with h0
    · simp only [Option.some.injEq, Prod.mk.injEq] at h
      rw [← h.2]
    · cases l with
      | nil =>
        simp only [Option.some.injEq, Prod.mk.injEq] at h
        rw [← h.2]
      | cons c rest =>
        simp only at h
        split_ifs at h with h1 h2 h3 h4
        · split at h
          · rename_i s1 r1 heq
            simp only [Option.some.injEq, Prod.mk.injEq] at h
            have := ih (depth + 1) rest s1 r1 heq
            rw [← h.2]
            simp
            omega
          · exact absurd h (by simp)
        · split at h
          · rename_i s1 r1 heq
            simp only [Option.some.injEq, Prod.mk.injEq] at h
            have := ih (depth - 1) rest s1 r1 heq
            rw [← h.2]
            simp
            omega
          · exact absurd h (by simp)
        · split at h
          · rename_i s1 r1 heq
            simp only [Option.some.injEq, Prod.mk.injEq] at h
            have hq := skipQuotedContent_len c c rest
            have := ih depth _ s1 r1 heq
            rw [← h.2]
            simp
            omega
          · exact absurd h (by simp)
        · cases rest with
          | nil =>
            dsimp only at h
            split at h
            · rename_i s1 r1 heq
              simp only [Option.some.injEq, Prod.mk.injEq] at h
              have := ih depth [] s1 r1 heq
              rw [← h.2]
              simp at this
              simp [this]
            · exact absurd h (by simp)
          | cons d rest2 =>
            dsimp only at h
            split at h
            · rename_i s1 r1 heq
              simp only [Option.some.injEq, Prod.mk.injEq] at h
              have := ih depth rest2 s1 r1 heq
              rw [← h.2]
              simp
              omega
            · exact absurd h (by simp)
        · split at h
          · rename_i s1 r1 heq
            simp only [Option.some.injEq, Prod.mk.injEq] at h
            have := ih depth rest s1 r1 heq
            rw [← h.2]
            simp
            omega
          · exact absurd h (by simp)

/-- `Scanner.readCommandSubstitution`: consume the opening parenthesis
and capture raw text up to its balanced closing parenthesis (or end of
input).  Total wrapper over the fuelled loop. -/
def readCmdSub (l : List Char) : List Char × List Char :=
  match l with
  | [] => ([], [])
  | c :: rest =>
    let res := (readCmdSubAux (rest.length + 1) 1 rest).get
      (readCmdSubAux_isSome (rest.length + 1) rest (Nat.lt_succ_self _) 1)
    (c :: res.1, res.2)

theorem readCmdSub_len (c : Char) (rest : List Char) :
    (readCmdSub (c :: rest)).2.length ≤ rest.length := by
  have hs := readCmdSubAux_isSome (rest.length + 1) rest (Nat.lt_succ_self _) 1
  obtain ⟨⟨s1, r1⟩, hp⟩ := Option.isSome_iff_exists.mp hs
  simp only [readCmdSub, hp, Option.get_some]
  exact readCmdSubAux_len _ 1 rest s1 r1 hp

/-- Consume the head character when it satisfies the given test
(the optional-negation and optional-first-bracket steps of
`readCharacterClass`). -/
def takeIfHead (p : Char → Bool) : List Char → List Char × List Char
  | [] => ([], [])
  | c :: rest => if p c then ([c], rest) else ([], c :: rest)

/-- The body loop of `Scanner.readCharacterClass`: consume up to the
closing bracket. -/
def readCharClassBody : List Char → List Char × List Char
  | [] => ([], [])
  | c :: rest =>
    if c = ']' then ([], c :: rest)
    else
      let s := readCharClassBody rest
      (c :: s.1, s.2)

/-- `Scanner.readCharacterClass`: `[`, optional `!`/`^` negation, an
optional literal `]` first member, the body, and the closing `]` when
present. -/
def readCharClass (l : List Char) : List Char × List Char :=
  match l with
  | [] => ([], [])
  | c :: rest =>
    let n := takeIfHead (fun d => d = '!' || d = '^') rest
    let b := takeIfHead (fun d => d = ']') n.2
    let body := readCharClassBody b.2
    let close := takeIfHead (fun d => d = ']') body.2
    (c :: (n.1 ++ (b.1 ++ (body.1 ++ close.1))), close.2)

theorem takeIfHead_len (p : Char → Bool) (l : List Char) :
    (takeIfHead p l).2.length ≤ l.length := by
  cases l with
  | nil => simp [takeIfHead]
  | cons c rest =>
    simp only [takeIfHead]
    split_ifs <;> simp

theorem readCharClassBody_len (l : List Char) :
    (readCharClassBody l).2.length ≤ l.length := by
  induction l with
  | nil => simp [readCharClassBody]
  | cons c rest ih =>
    simp only [readCharClassBody]
    split_ifs
    · simp
    · simp
      omega

theorem readCharClass_len (c : Char) (rest : List Char) :
    (readCharClass (c :: rest)).2.length ≤ rest.length := by
  simp only [readCharClass]
  have h1 := takeIfHead_len (fun d => d = '!' || d = '^') rest
  have h2 := takeIfHead_len (fun d => d = ']') (takeIfHead (fun d => d = '!' || d = '^') rest).2
  have h3 := readCharClassBody_len (takeIfHead (fun d => d = ']')
    (takeIfHead (fun d => d = '!' || d = '^') rest).2).2
  have h4 := takeIfHead_len (fun d => d = ']') (readCharClassBody (takeIfHead (fun d => d = ']')
    (takeIfHead (fun d => d = '!' || d = '^') rest).2).2).2
  omega

/-- `Scanner.handleEscape`: consume the backslash; then produce a lone
backslash at end of input or before a NUL peek, nothing for a line
continuation, the escaped character for `\"` and `\\` inside double
quotes (a literal backslash before anything else there), and the next
character verbatim outside quotes. -/
def handleEscape (stack : List LexState) (l : List Char) : List Char × List Char :=
  match l with
  | [] => ([], [])
  | c :: rest =>
    match rest with
    | [] => ([c], [])
    | d :: rest2 =>
      if d = nulChar then ([c], d :: rest2)
      else if d = '\n' then ([], rest2)
      else if inDouble stack then
        if d = '"' ∨ d = '\\' then ([d], rest2)
        else ([c], d :: rest2)
      else ([d], rest2)

theorem handleEscape_len (stack : List LexState) (c : Char) (rest : List Char) :
    (handleEscape stack (c :: rest)).2.length ≤ rest.length := by
  cases rest with
  | nil => simp [handleEscape]
  | cons d rest2 =>
    simp only [handleEscape]
    split_ifs <;> simp

/-- `Scanner.processChar`: dispatch one character of a complex word on
the current quoting state, returning the captured spelling fragment, the
flags it contributes, the updated state stack, and the rest of the
input. -/
def processChar (stack : List LexState) (c : Char) (rest : List Char) :
    List Char × TokenFlags × List LexState × List Char :=
  if c = squote ∧ inDouble stack = false then
    if inSingle stack then ([], emptyFlags, popState stack, rest)
    else ([], flagsSingle, LexState.singleQuoted :: stack, rest)
  else if c = '"' ∧ inSingle stack = false then
    if inDouble stack then ([], emptyFlags, popState stack, rest)
    else ([], flagsDouble, LexState.doubleQuoted :: stack, rest)
  else if c = '\\' ∧ inSingle stack = false then
    let e := handleEscape stack (c :: rest)
    (e.1, emptyFlags, stack, e.2)
  else if c = '(' ∧ inSingle stack = false then
    let s := readCmdSub (c :: rest)
    (s.1, flagsExpansion, stack, s.2)
  else if (c = '*' ∨ c = '?') ∧ inQuotes stack = false then
    ([c], flagsGlob, stack, rest)
  else if c = '[' ∧ inQuotes stack = false then
    let s := readCharClass (c :: rest)
    (s.1, flagsGlob, stack, s.2)
  else ([c], emptyFlags, stack, rest)

theorem processChar_len (stack : List LexState) (c : Char) (rest : List Char) :
    (processChar stack c rest).2.2.2.length ≤ rest.length := by
  simp only [processChar]
  split_ifs with h1 h1b h2 h2b h3 h4 h5 h6
  · simp
  · simp
  · simp
  · simp
  · exact handleEscape_len stack c rest
  · exact readCmdSub_len c rest
  · simp
  · exact readCharClass_len c rest
  · simp

/-- `Scanner.readComplexWord`: the slow-path word loop.  Stop at end of
input or, outside quotes, at a word boundary; otherwise process one
character and continue, accumulating spelling and flags.  Fuelled;
`none` marks fuel exhaustion, proved unreachable below. -/
def complexWordAux : Nat → List LexState → List Char → Option (List Char × TokenFlags × List Char)
  | 0, _, _ => none
  | f + 1, stack, l =>
    match l with
    | [] => some ([], emptyFlags, [])
    | c :: rest =>
      if inQuotes stack = false ∧ isWordBoundary c = true then some ([], emptyFlags, c :: rest)
      else
        let st := processChar stack c rest
        match complexWordAux f st.2.2.1 st.2.2.2 with
        | some (sp, fl, r) => some (st.1 ++ sp, mergeFlags st.2.1 fl, r)
        | none => none

theorem complexWordAux_isSome :
    ∀ (f : Nat) (l : List Char) (stack : List LexState),
      l.length < f → (complexWordAux f stack l).isSome := by
  intro f
  induction f with
  | zero => intro l stack h; omega
  | succ f ih =>
    intro l stack hl
    simp only [complexWordAux]
    cases l with
    | nil => simp
    | cons c rest =>
      simp only
      split_ifs with h1
      · simp
      · have hp := processChar_len stack c rest
        have hlt : (processChar stack c rest).2.2.2.length < f := by
          simp at hl
          omega
        have := ih (processChar stack c rest).2.2.2 (processChar stack c rest).2.2.1 hlt
        obtain ⟨⟨sp, fl, r⟩, hv⟩ := Option.isSome_iff_exists.mp this
        simp [hv]

theorem complexWordAux_len :
    ∀ (f : Nat) (stack : List LexState) (l : List Char) (sp : List Char) (fl : TokenFlags)
      (r : List Char), complexWordAux f stack l = some (sp, fl, r) → r.length ≤ l.length := by
  intro f
  induction f with
  | zero => intro stack l sp fl r h; simp [complexWordAux] at h
  | succ f ih =>
    intro stack l sp fl r h
    simp only [complexWordAux] at h
    cases l with
    | nil =>
      simp only [Option.some.injEq, Prod.mk.injEq] at h
      rw [← h.2.2]
    | cons c rest =>
      simp only at h
      split_ifs at h with h1
      · simp only [Option.some.injEq, Prod.mk.injEq] at h
        rw [← h.2.2]
      · split at h
        · rename_i sp1 fl1 r1 heq
          simp only [Option.some.injEq, Prod.mk.injEq] at h
          have hrec := ih _ _ sp1 fl1 r1 heq
          have hp := processChar_len stack c rest
          rw [← h.2.2]
          simp
          omega
        · exact absurd h (by simp)

theorem complexWordAux_progress (f : Nat) (stack : List LexState) (c : Char)
    (rest : List Char) (sp : List Char) (fl : TokenFlags) (r : List Char)
    (hq : ¬(inQuotes stack = false ∧ isWordBoundary c = true))
    (h : complexWordAux f stack (c :: rest) = some (sp, fl, r)) :
    r.length ≤ rest.length := by
  cases f with
  | zero => simp [complexWordAux] at h
  | succ f =>
    simp only [complexWordAux] at h
    rw [if_neg hq] at h
    split at h
    · rename_i sp1 fl1 r1 heq
      simp only [Option.some.injEq, Prod.mk.injEq] at h
      have hrec := complexWordAux_len f _ _ sp1 fl1 r1 heq
      have hp := processChar_len stack c rest
      rw [← h.2.2]
      omega
    · exact absurd h (by simp)

/-- `Scanner.readWord`: fast path when it ends exactly at a word
boundary, otherwise re-scan the word with the slow path from a fresh
(`reset`) state stack. -/
def readWord (l : List Char) : List Char × TokenFlags × List Char :=
  match tryFastPath l with
  | some (sp, r) => (sp, emptyFlags, r)
  | none =>
    (complexWordAux (l.length + 1) [LexState.normal] l).get
      (complexWordAux_isSome (l.length + 1) l [LexState.normal] (Nat.lt_succ_self _))

theorem takeNonSpecial_append (l : List Char) :
    (takeNonSpecial l).1 ++ (takeNonSpecial l).2 = l := by
  induction l with
  | nil => simp [takeNonSpecial]
  | cons c rest ih =>
    simp only [takeNonSpecial]
    split_ifs
    · simp
    · simpa using ih

theorem readWord_progress (c : Char) (rest : List Char)
    (hb : isWordBoundary c = false) :
    (readWord (c :: rest)).2.2.length ≤ rest.length := by
  simp only [readWord]
  split
  · rename_i sp r heq
    simp only [tryFastPath] at heq
    split_ifs at heq with h1
    · split at heq
      · simp only [Option.some.injEq] at heq
        have happ := takeNonSpecial_append (c :: rest)
        rw [heq] at happ h1
        have hlen : sp.length + r.length = rest.length + 1 := by
          have := congrArg List.length happ
          simpa using this
        have hsp : 1 ≤ sp.length := by
          cases sp with
          | nil => simp at h1
          | cons a b => simp
        simp
        omega
      · rename_i d r2 hcons
        split_ifs at heq with h2
        simp only [Option.some.injEq] at heq
        have happ := takeNonSpecial_append (c :: rest)
        rw [heq] at happ h1
        have hlen : sp.length + r.length = rest.length + 1 := by
          have := congrArg List.length happ
          simpa using this
        have hsp : 1 ≤ sp.length := by
          cases sp with
          | nil => simp at h1
          | cons a b => simp
        simp
        omega
  · have hs := complexWordAux_isSome ((c :: rest).length + 1) (c :: rest) [LexState.normal]
      (Nat.lt_succ_self _)
    obtain ⟨⟨sp1, fl1, r1⟩, hp⟩ := Option.isSome_iff_exists.mp hs
    simp only [hp, Option.get_some]
    refine complexWordAux_progress _ _ c rest sp1 fl1 r1 ?_ hp
    intro hcon
    rw [hb] at hcon
    exact Bool.false_ne_true hcon.2

theorem skipWs_len (l : List Char) : (skipWs l).length ≤ l.length := by
  generalize hn : l.length = n
  induction n using Nat.strong_induction_on generalizing l with
  | _ n ih =>
    subst hn
    match l with
    | [] => simp [skipWs]
    | c :: rest =>
      rw [skipWs.eq_def]
      dsimp only
      split_ifs with h1 h2
      · have := ih rest.length (by simp) rest rfl
        simp
        omega
      · split
        · rename_i rest0 rest2
          have := ih rest2.length (by simp only [List.length_cons]; omega) rest2 rfl
          simp only [List.length_cons]
          omega
        · simp
      · simp

theorem skipWs_head (l : List Char) :
    ∀ c rest, skipWs l = c :: rest → ¬(c = ' ' ∨ c = '\t') := by
  generalize hn : l.length = n
  induction n using Nat.strong_induction_on generalizing l with
  | _ n ih =>
    subst hn
    match l with
    | [] => intro c rest h; simp [skipWs] at h
    | c0 :: rest0 =>
      intro c rest h
      rw [skipWs.eq_def] at h
      dsimp only at h
      split_ifs at h with h1 h2
      · exact ih rest0.length (by simp) rest0 rfl c rest h
      · split at h
        · rename_i restA rest2
          exact ih rest2.length (by simp only [List.length_cons]; omega) rest2 rfl c rest h
        · simp only [List.cons.injEq] at h
          rw [← h.1, h2]
          decide
      · simp only [List.cons.injEq] at h
        rw [← h.1]
        exact h1

/-- `Scanner.nextToken`: dispatch on the first character after
whitespace skipping — end of input or NUL sentinel (EOF token), comment,
newline, the single-character operators, parentheses, then word
scanning.  The token records its span from the given start position. -/
def nextToken (l : List Char) (p : Pos) : Token × List Char × Pos :=
  match l with
  | [] => (⟨.eof, "", p, p, emptyFlags⟩, [], p)
  | c :: rest =>
    if c = nulChar then (⟨.eof, "", p, p, emptyFlags⟩, c :: rest, p)
    else if c = '#' then
      let s := readComment (c :: rest)
      let p2 := p.advanceMany s.1
      (⟨.comment, String.mk s.1, p, p2, emptyFlags⟩, s.2, p2)
    else if c = '\n' then
      (⟨.newline, "\n", p, p.advance c, emptyFlags⟩, rest, p.advance c)
    else if c = '|' then (⟨.pipe, "|", p, p.advance c, emptyFlags⟩, rest, p.advance c)
    else if c = '<' then (⟨.less, "<", p, p.advance c, emptyFlags⟩, rest, p.advance c)
    else if c = '>' then (⟨.great, ">", p, p.advance c, emptyFlags⟩, rest, p.advance c)
    else if c = '(' then (⟨.lparen, "(", p, p.advance c, emptyFlags⟩, rest, p.advance c)
    else if c = ')' then (⟨.rparen, ")", p, p.advance c, emptyFlags⟩, rest, p.advance c)
    else
      let w := readWord (c :: rest)
      let p2 := p.advanceMany (consumedBy (c :: rest) w.2.2)
      (⟨classifyKind w.1, String.mk w.1, p, p2, w.2.1⟩, w.2.2, p2)

/-- `Scanner.getToken`: skip inter-token whitespace, then scan one
token from the resulting position. -/
def getToken (l : List Char) (p : Pos) : Token × List Char × Pos :=
  nextToken (skipWs l) (p.advanceMany (consumedBy l (skipWs l)))

theorem classifyKind_ne_eof (sp : List Char) : classifyKind sp ≠ .eof := by
  simp only [classifyKind]
  split_ifs <;> decide

theorem readComment_len (l : List Char) : (readComment l).2.length ≤ l.length := by
  induction l with
  | nil => simp [readComment]
  | cons c rest ih =>
    simp only [readComment]
    split_ifs
    · simp
    · simp
      omega

theorem readComment_cons_len (c : Char) (rest : List Char) (h : ¬c = '\n') :
    (readComment (c :: rest)).2.length ≤ rest.length := by
  simp only [readComment, if_neg h]
  exact readComment_len rest

theorem nextToken_progress (l : List Char) (p : Pos)
    (hws : ∀ c rest, l = c :: rest → ¬(c = ' ' ∨ c = '\t'))
    (hne : (nextToken l p).1.kind ≠ TokenKind.eof) :
    (nextToken l p).2.1.length < l.length := by
  cases l with
  | nil => simp [nextToken] at hne
  | cons c rest =>
    have hcw := hws c rest rfl
    push_neg at hcw
    simp only [nextToken] at hne ⊢
    split_ifs at hne ⊢ with h1 h2 h3 h4 h5 h6 h7 h8
    · exact absurd rfl hne
    · have hcn : ¬c = '\n' := by rw [h2]; decide
      have := readComment_cons_len c rest hcn
      simp
      omega
    · simp
    · simp
    · simp
    · simp
    · simp
    · simp
    · have hb : isWordBoundary c = false := by
        simp only [isWordBoundary]
        simp [hcw.1, hcw.2, h1, h3, h4, h5, h6, h7, h8]
      have := readWord_progress c rest hb
      simp
      omega

theorem getToken_progress (l : List Char) (p : Pos)
    (hne : (getToken l p).1.kind ≠ TokenKind.eof) :
    (getToken l p).2.1.length < l.length := by
  simp only [getToken] at hne ⊢
  have h1 := skipWs_len l
  have h2 := nextToken_progress (skipWs l) (p.advanceMany (consumedBy l (skipWs l)))
    (skipWs_head l) hne
  omega

theorem nextToken_eof (l : List Char) (p : Pos)
    (h : (nextToken l p).1.kind = TokenKind.eof) :
    (nextToken l p).2.1 = l ∧ (l = [] ∨ ∃ r2, l = nulChar :: r2) := by
  cases l with
  | nil => exact ⟨rfl, Or.inl rfl⟩
  | cons c rest =>
    simp only [nextToken] at h ⊢
    split_ifs at h ⊢ with h1 h2 h3 h4 h5 h6 h7 h8
    · exact ⟨rfl, Or.inr ⟨rest, by rw [h1]⟩⟩
    · exact absurd h (classifyKind_ne_eof (readWord (c :: rest)).1)

theorem getToken_eof (l : List Char) (p : Pos)
    (h : (getToken l p).1.kind = TokenKind.eof) :
    (getToken l p).2.1 = [] ∨ ∃ r2, (getToken l p).2.1 = nulChar :: r2 := by
  simp only [getToken] at h ⊢
  have := nextToken_eof (skipWs l) (p.advanceMany (consumedBy l (skipWs l))) h
  rw [this.1]
  exact this.2

/-- `Scanner.tokenize`: collect tokens until (and including) the EOF
token.  Fuelled; `none` marks fuel exhaustion, proved unreachable for
sufficient fuel. -/
def tokenizeAux : Nat → List Char → Pos → Option (List Token × List Char × Pos)
  | 0, _, _ => none
  | f + 1, l, p =>
    let g := getToken l p
    if g.1.kind = TokenKind.eof then some ([g.1], g.2.1, g.2.2)
    else
      match tokenizeAux f g.2.1 g.2.2 with
      | some (ts, r, p2) => some (g.1 :: ts, r, p2)
      | none => none

theorem tokenizeAux_isSome :
    ∀ (f : Nat) (l : List Char) (p : Pos), l.length < f → (tokenizeAux f l p).isSome := by
  intro f
  induction f with
  | zero => intro l p h; omega
  | succ f ih =>
    intro l p hl
    simp only [tokenizeAux]
    split_ifs with he
    · simp
    · have hlt := getToken_progress l p he
      have := ih (getToken l p).2.1 (getToken l p).2.2 (by omega)
      obtain ⟨⟨ts, r, p2⟩, hv⟩ := Option.isSome_iff_exists.mp this
      simp [hv]

/-- Tokenize a whole input from the initial reader position (a fresh
`Scanner` instance over the text): the token list, the unconsumed
remainder, and the final position. -/
def tokenize (l : List Char) : List Token × List Char × Pos :=
  (tokenizeAux (l.length + 1) l Pos.zero).get
    (tokenizeAux_isSome (l.length + 1) l Pos.zero (Nat.lt_succ_self _))

theorem tokenizeAux_shape :
    ∀ (f : Nat) (l : List Char) (p : Pos) (ts : List Token) (r : List Char) (p2 : Pos),
      tokenizeAux f l p = some (ts, r, p2) →
      ts ≠ [] ∧ (∃ t, ts.getLast? = some t ∧ t.kind = TokenKind.eof) ∧
        (r = [] ∨ ∃ r2, r = nulChar :: r2) := by
  intro f
  induction f with
  | zero => intro l p ts r p2 h; simp [tokenizeAux] at h
  | succ f ih =>
    intro l p ts r p2 h
    simp only [tokenizeAux] at h
    split_ifs at h with he
    · simp only [Option.some.injEq, Prod.mk.injEq] at h
      refine ⟨by rw [← h.1]; simp, ⟨(getToken l p).1, ?_, he⟩, ?_⟩
      · rw [← h.1]
        simp
      · rw [← h.2.1]
        exact getToken_eof l p he
    · split at h
      · rename_i ts1 r1 p21 heq
        simp only [Option.some.injEq, Prod.mk.injEq] at h
        obtain ⟨hne1, ⟨t, hlast, hkind⟩, hr⟩ := ih _ _ ts1 r1 p21 heq
        refine ⟨by rw [← h.1]; simp, ⟨t, ?_, hkind⟩, by rw [← h.2.1]; exact hr⟩
        rw [← h.1]
        cases ts1 with
        | nil => exact absurd rfl hne1
        | cons b l2 =>
          rw [List.getLast?_cons_cons]
          exact hlast
      · exact absurd h (by simp)

/-- One full scan as a relation: the token sequence a fresh scanner
produces for an input, built one `getToken` step at a time and ending at
the EOF token. -/
inductive Lexes : List Char → Pos → List Token → Prop where
  | done (l : List Char) (p : Pos) (t : Token) (r : List Char) (p2 : Pos) :
      getToken l p = (t, r, p2) → t.kind = TokenKind.eof → Lexes l p [t]
  | step (l : List Char) (p : Pos) (t : Token) (r : List Char) (p2 : Pos) (ts : List Token) :
      getToken l p = (t, r, p2) → t.kind ≠ TokenKind.eof → Lexes r p2 ts → Lexes l p (t :: ts)

theorem lexes_deterministic :
    ∀ (l : List Char) (p : Pos) (ts1 ts2 : List Token),
      Lexes l p ts1 → Lexes l p ts2 → ts1 = ts2 := by
  intro l p ts1 ts2 h1
  induction h1 generalizing ts2 with
  | done l p t r p2 hget hk =>
    intro h2
    cases h2 with
    | done l2 p2b t2 r2 p2c hget2 hk2 =>
      rw [hget] at hget2
      simp only [Prod.mk.injEq] at hget2
      rw [hget2.1]
    | step l2 p2b t2 r2 p2c ts hget2 hk2 hrest =>
      rw [hget] at hget2
      simp only [Prod.mk.injEq] at hget2
      rw [← hget2.1] at hk2
      exact absurd hk hk2
  | step l p t r p2 ts hget hk hrest ih =>
    intro h2
    cases h2 with
    | done l2 p2b t2 r2 p2c hget2 hk2 =>
      rw [hget] at hget2
      simp only [Prod.mk.injEq] at hget2
      rw [← hget2.1] at hk2
      exact absurd hk2 hk
    | step l2 p2b t2 r2 p2c ts2b hget2 hk2 hrest2 =>
      rw [hget] at hget2
      simp only [Prod.mk.injEq] at hget2
      obtain ⟨ht, hr, hp2⟩ := hget2
      rw [← ht]
      rw [← hr, ← hp2] at hrest2
      rw [ih ts2b hrest2]

end Lexer

namespace ParserAst

/-- A source span: start and end position, as on every AST node
(`packages/compiler/src/parser/ast.ts`). -/
abbrev Span := Lexer.Pos × Lexer.Pos

mutual
/-- `Program` from `ast.ts`: a whole program is one pipeline. -/
inductive Program where
  | mk (span : Span) (pipeline : Pipeline)
/-- `Pipeline` from `ast.ts`. -/
inductive Pipeline where
  | mk (span : Span) (commands : List SimpleCommand)
/-- `SimpleCommand` from `ast.ts`. -/
inductive SimpleCommand where
  | mk (span : Span) (name : Word) (args : List Word) (redirections : List Redirection)
/-- `Word` from `ast.ts`: a sequence of word parts plus a quoted flag. -/
inductive Word where
  | mk (span : Span) (parts : List WordPart) (quoted : Bool)
/-- `WordPart` from `ast.ts`: literal, glob, or command substitution
(carrying its recursively parsed inner program). -/
inductive WordPart where
  | literalPart (span : Span) (value : String)
  | globPart (span : Span) (pattern : String)
  | commandSubPart (span : Span) (program : Program)
/-- `Redirection` from `ast.ts`. -/
inductive Redirection where
  | mk (span : Span) (redirectKind : Compiler.RedirKind) (target : Word)
end

/-- The parts of a `Word`. -/
def Word.parts : Word → List WordPart
  | .mk _ parts _ => parts

/-- Whether a word part is a literal part. -/
def WordPart.isLiteral : WordPart → Bool
  | .literalPart _ _ => true
  | _ => false

/-- The literal text of a literal part (and `""` otherwise; only read
under the all-literal guard, mirroring the cast in `ast.ts`). -/
def WordPart.literalText : WordPart → String
  | .literalPart _ v => v
  | _ => ""

/-- `Word.literalValue` from `ast.ts`: when every part is literal, the
concatenation of the literal values in order; otherwise none. -/
def Word.literalValue (w : Word) : Option String :=
  if w.parts.all WordPart.isLiteral then
    some (String.join (w.parts.map WordPart.literalText))
  else none

/-- Modelled from the spec: the word sub-parser (`parser/word.ts`, whose
body is not under src/) converts a word token that carries no glob flag
and no substitution flag into a `Word` with a single literal part
covering the token span (spec §4.2 `word ::= (literal | glob |
commandSub)+` and §3: a Word's parts, concatenated in order, reproduce
its textual form). -/
def wordOfLiteralToken (t : Lexer.Token) : Word :=
  Word.mk (t.start, t.stop) [WordPart.literalPart (t.start, t.stop) t.spelling]
    (t.flags.quoted)

end ParserAst

namespace ParserV2

/-- `Parser.MAX_SUBSTITUTION_DEPTH` from the main parser module. -/
def MAX_SUBSTITUTION_DEPTH : Nat := 10

/-- Parse/execution failures of the substitution-depth model.
`depthExceeded` is the dedicated "Maximum command substitution depth
exceeded" error of `Parser.parseSubstitution`. -/
inductive ParseErr where
  | depthExceeded
  | fuelExhausted
deriving DecidableEq

/-- Modelled from the spec: the program/word walk of the parser around
command substitutions (the word sub-parser is not under src/).  The
walker scans a program's source text; on `(` it performs the raw
balanced capture (the genuine `readCommandSubstitution` embedding),
strips the outer parentheses and recursively parses the inner text as a
program through the depth check of `Parser.parseSubstitution`
(spec §4.2: `commandSub ::= '(' <raw text, recursively parsed as
program> ')'`, with a shared depth counter incremented per nesting). -/
def parseTextModel : Nat → Nat → List Char → Except ParseErr Unit
  | 0, _, _ => .error .fuelExhausted
  | f + 1, depth, l =>
    match l with
    | [] => .ok ()
    | c :: rest =>
      if c = '(' then
        if MAX_SUBSTITUTION_DEPTH ≤ depth then .error .depthExceeded
        else
          let s := Lexer.readCmdSub (c :: rest)
          let inner0 := s.1.drop 1
          let inner := if inner0.getLast? = some ')' then inner0.dropLast else inner0
          match parseTextModel f (depth + 1) inner with
          | .ok _ => parseTextModel f depth s.2
          | .error e => .error e
      else parseTextModel f depth rest

/-- `Parser.parseSubstitution` from the main parser module: raise the
dedicated depth-exceeded error when the current depth has reached
`MAX_SUBSTITUTION_DEPTH`, otherwise parse the inner text with a fresh
parser at depth + 1. -/
def parseSubstitutionModel (fuel depth : Nat) (input : List Char) : Except ParseErr Unit :=
  if MAX_SUBSTITUTION_DEPTH ≤ depth then .error .depthExceeded
  else parseTextModel fuel (depth + 1) input

/-- Modelled from the spec: the executor's recursive compile-and-run of
a pending substitution's source text (spec §4.5: "evaluating any pending
substitution by recursively compiling and executing its inner program";
§5: "command-substitution recursion (both parse-time and execute-time)
is bounded by the same constant; exceeding it is a hard failure").  The
walk mirrors the parse-time walk and checks the same constant. -/
def runTextModel : Nat → Nat → List Char → Except ParseErr Unit
  | 0, _, _ => .error .fuelExhausted
  | f + 1, depth, l =>
    match l with
    | [] => .ok ()
    | c :: rest =>
      if c = '(' then
        if MAX_SUBSTITUTION_DEPTH ≤ depth then .error .depthExceeded
        else
          let s := Lexer.readCmdSub (c :: rest)
          let inner0 := s.1.drop 1
          let inner := if inner0.getLast? = some ')' then inner0.dropLast else inner0
          match runTextModel f (depth + 1) inner with
          | .ok _ => runTextModel f depth s.2
          | .error e => .error e
      else runTextModel f depth rest

/-- A chain of `k` nested command substitutions around a one-letter
command: `(((...x...)))`. -/
def nestChain (k : Nat) : List Char :=
  List.replicate k '(' ++ ['x'] ++ List.replicate k ')'

end ParserV2

/-! ## Claim theorems -/

/-- Claim C1: command-substitution nesting depth is bounded by the fixed
maximum 10.  Parsing a chain of 10 nested `(...)` substitutions succeeds
while a chain of 11 fails with the dedicated depth-exceeded error (not
by truncating), the `parseSubstitution` depth check itself admits depth
9 and rejects depth 10, and the execution-time recursive compile-and-run
walk enforces the same bound on the same inputs. -/
theorem claim_substitution_depth_bound :
    ParserV2.MAX_SUBSTITUTION_DEPTH = 10
    ∧ ParserV2.parseTextModel 64 0 (ParserV2.nestChain 10) = .ok ()
    ∧ ParserV2.parseTextModel 64 0 (ParserV2.nestChain 11) = .error .depthExceeded
    ∧ ParserV2.parseSubstitutionModel 64 9 ['x'] = .ok ()
    ∧ ParserV2.parseSubstitutionModel 64 10 ['x'] = .error .depthExceeded
    ∧ ParserV2.runTextModel 64 0 (ParserV2.nestChain 10) = .ok ()
    ∧ ParserV2.runTextModel 64 0 (ParserV2.nestChain 11) = .error .depthExceeded :=
  ⟨rfl, rfl, rfl, rfl, rfl, rfl, rfl⟩

/-- Claim C2: for every integer `n` and input of `k` records, `tail(n)`
yields exactly the last `min(n, k)` records in original order (the
`drop` formulation), yields nothing for `n ≤ 0`, and at every point
while consuming the input retains at most `n` records in its buffer —
at most `n + 1` momentarily after pushing the incoming record. -/
theorem claim_tail_min_buffer {α : Type} (n : Int) (xs : List α) :
    Vsh.tailRun n xs = xs.drop (xs.length - n.toNat)
    ∧ (Vsh.tailRun n xs).length = min n.toNat xs.length
    ∧ (n ≤ 0 → Vsh.tailRun n xs = [])
    ∧ (∀ l1 x l2, xs = l1 ++ x :: l2 →
        (Vsh.tailRun n l1).length ≤ n.toNat ∧
        (Vsh.tailRun n l1 ++ [x]).length ≤ n.toNat + 1) := by
  refine ⟨Vsh.tailRun_drop n xs, ?_, ?_, ?_⟩
  · rw [Vsh.tailRun_drop]
    simp only [List.length_drop]
    omega
  · intro hn
    rw [Vsh.tailRun_drop]
    have h0 : n.toNat = 0 := by omega
    rw [h0]
    simp
  · intro l1 x l2 _
    have h1 : (Vsh.tailRun n l1).length = min n.toNat l1.length := by
      rw [Vsh.tailRun_drop]
      simp only [List.length_drop]
      omega
    constructor
    · rw [h1]
      omega
    · rw [List.length_append, h1]
      simp only [List.length_singleton]
      omega

/-- Claim C2 witness: concrete runs of the claim — the last two of five
records, nothing for a negative count, and the buffer bound after a
three-record prefix. -/
theorem claim_tail_min_buffer_witness :
    Vsh.tailRun 2 ([1, 2, 3, 4, 5] : List Nat) = [4, 5]
    ∧ Vsh.tailRun (-3) ([1, 2] : List Nat) = []
    ∧ (Vsh.tailRun 2 ([1, 2, 3] : List Nat)).length ≤ 2 := by
  refine ⟨?_, ?_, ?_⟩
  · rw [(claim_tail_min_buffer 2 [1, 2, 3, 4, 5]).1]
    rfl
  · exact (claim_tail_min_buffer (-3) [1, 2]).2.2.1 (by decide)
  · have h := ((claim_tail_min_buffer 2 ([1, 2, 3, 4] : List Nat)).2.2.2 [1, 2, 3] 4 [] rfl).1
    simpa using h

/-- Claim C3 counterexample: the claim that each of the ten spec-listed
command names resolves in the compiler's handler registry is false as
stated — `pwd` is absent from the V2 (AST-based) registry, where lookup
raises the unknown-command error, and `mv` (with `touch`, `head`,
`mkdir`) is absent from the legacy registry. -/
theorem claim_registry_counterexample :
    Compiler.hasV2 "pwd" = false
    ∧ Compiler.getV2 "pwd" = .error "Unknown command: pwd"
    ∧ Compiler.hasV1 "mv" = false
    ∧ Compiler.getV1 "mv" = .error "Unknown command: mv" :=
  ⟨rfl, rfl, rfl, rfl⟩

/-- Claim C3 (amended): each of the ten spec-listed command names has a
handler in at least one of the two registries — the V2 registry for all
but `pwd`, which only the legacy registry carries. -/
theorem claim_registry_union (name : String)
    (h : name ∈ ["ls", "cat", "cp", "mv", "rm", "touch", "head", "tail", "mkdir", "pwd"]) :
    Compiler.hasV2 name = true ∨ Compiler.hasV1 name = true := by
  fin_cases h
  · exact Or.inl rfl
  · exact Or.inl rfl
  · exact Or.inl rfl
  · exact Or.inl rfl
  · exact Or.inl rfl
  · exact Or.inl rfl
  · exact Or.inl rfl
  · exact Or.inl rfl
  · exact Or.inl rfl
  · exact Or.inr rfl

/-- Claim C3 witness: the amended claim applied at the one name that
only the legacy registry resolves. -/
theorem claim_registry_union_witness :
    Compiler.hasV2 "pwd" = true ∨ Compiler.hasV1 "pwd" = true :=
  claim_registry_union "pwd" (by simp)

/-- Claim C4: in any argument position, a glob `ExpandedWord` whose
resolved list is empty contributes exactly the singleton list holding
its literal pattern text (never the empty set), and one whose resolved
list is non-empty contributes exactly the resolved matches. -/
theorem claim_glob_no_match_literal (ws1 ws2 : List Compiler.ExpandedWord)
    (pattern : String) (resolved : List String) :
    Compiler.extractPathsFromExpandedWords (ws1 ++ .glob pattern resolved :: ws2) =
      Compiler.extractPathsFromExpandedWords ws1 ++
        (if resolved = [] then [pattern] else resolved) ++
        Compiler.extractPathsFromExpandedWords ws2 := by
  simp only [Compiler.extractPathsFromExpandedWords]
  cases resolved with
  | nil => simp
  | cons a as => simp

/-- Claim C5: lexing is deterministic — two complete scans of the same
source text from fresh scanner states produce the same token sequence
(kinds, spellings, spans and flags all included in token equality). -/
theorem claim_lexing_deterministic (text : List Char) (ts1 ts2 : List Lexer.Token)
    (h1 : Lexer.Lexes text Lexer.Pos.zero ts1)
    (h2 : Lexer.Lexes text Lexer.Pos.zero ts2) : ts1 = ts2 :=
  Lexer.lexes_deterministic text Lexer.Pos.zero ts1 ts2 h1 h2

/-- Claim C5 witness: two fresh scans of `ls` produce the same two
tokens. -/
theorem claim_lexing_deterministic_witness :
    ([⟨.name, "ls", ⟨1, 1, 0⟩, ⟨1, 3, 2⟩, Lexer.emptyFlags⟩,
      ⟨.eof, "", ⟨1, 3, 2⟩, ⟨1, 3, 2⟩, Lexer.emptyFlags⟩] : List Lexer.Token) =
      [⟨.name, "ls", ⟨1, 1, 0⟩, ⟨1, 3, 2⟩, Lexer.emptyFlags⟩,
       ⟨.eof, "", ⟨1, 3, 2⟩, ⟨1, 3, 2⟩, Lexer.emptyFlags⟩] :=
  claim_lexing_deterministic ("ls".toList) _ _
    (Lexer.Lexes.step ("ls".toList) Lexer.Pos.zero
      ⟨.name, "ls", ⟨1, 1, 0⟩, ⟨1, 3, 2⟩, Lexer.emptyFlags⟩ [] ⟨1, 3, 2⟩
      [⟨.eof, "", ⟨1, 3, 2⟩, ⟨1, 3, 2⟩, Lexer.emptyFlags⟩] rfl (by decide)
      (Lexer.Lexes.done [] ⟨1, 3, 2⟩
        ⟨.eof, "", ⟨1, 3, 2⟩, ⟨1, 3, 2⟩, Lexer.emptyFlags⟩ [] ⟨1, 3, 2⟩ rfl rfl))
    (Lexer.Lexes.step ("ls".toList) Lexer.Pos.zero
      ⟨.name, "ls", ⟨1, 1, 0⟩, ⟨1, 3, 2⟩, Lexer.emptyFlags⟩ [] ⟨1, 3, 2⟩
      [⟨.eof, "", ⟨1, 3, 2⟩, ⟨1, 3, 2⟩, Lexer.emptyFlags⟩] rfl (by decide)
      (Lexer.Lexes.done [] ⟨1, 3, 2⟩
        ⟨.eof, "", ⟨1, 3, 2⟩, ⟨1, 3, 2⟩, Lexer.emptyFlags⟩ [] ⟨1, 3, 2⟩ rfl rfl))

/-- Claim C6: the lexer is total and never raises — for every input
(also unterminated quotes and unbalanced parentheses), tokenization
terminates within the fuel bound, the token list is non-empty and ends
with the EOF token, and the input is exhausted (the remainder is empty,
or starts at the NUL sentinel where the scanner stops). -/
theorem claim_lexer_total (input : List Char) :
    (Lexer.tokenizeAux (input.length + 1) input Lexer.Pos.zero).isSome = true
    ∧ (Lexer.tokenize input).1 ≠ []
    ∧ (∃ t, ((Lexer.tokenize input).1).getLast? = some t ∧ t.kind = Lexer.TokenKind.eof)
    ∧ ((Lexer.tokenize input).2.1 = [] ∨
        ∃ r2, (Lexer.tokenize input).2.1 = Lexer.nulChar :: r2) := by
  have hs := Lexer.tokenizeAux_isSome (input.length + 1) input Lexer.Pos.zero
    (Nat.lt_succ_self _)
  obtain ⟨⟨ts, r, p2⟩, hv⟩ := Option.isSome_iff_exists.mp hs
  have hshape := Lexer.tokenizeAux_shape _ _ _ ts r p2 hv
  have htok : Lexer.tokenize input = (ts, r, p2) := by
    simp only [Lexer.tokenize, hv, Option.get_some]
  refine ⟨hs, ?_, ?_, ?_⟩
  · rw [htok]
    exact hshape.1
  · rw [htok]
    exact hshape.2.1
  · rw [htok]
    exact hshape.2.2

/-- Claim C7: `rm` flag classification is decided solely from each
argument's compile-time string (literal value, glob pattern,
substitution source text): re-resolving the execution-time result lists
of glob and substitution arguments changes neither the recursive flag,
nor which positions are kept as paths, nor compile success. -/
theorem claim_flags_compile_time (name1 name2 : Compiler.ExpandedWord)
    (rd1 rd2 : List Compiler.RedirectionIR) (args1 args2 : List Compiler.ExpandedWord)
    (h : List.Forall₂ Compiler.Reresolves args1 args2) :
    (Compiler.rmClassify args1 false []).1 = (Compiler.rmClassify args2 false []).1
    ∧ List.Forall₂ Compiler.Reresolves (Compiler.rmClassify args1 false []).2
        (Compiler.rmClassify args2 false []).2
    ∧ ((Compiler.compileRmV2 ⟨name1, args1, rd1⟩).isOk = true ↔
        (Compiler.compileRmV2 ⟨name2, args2, rd2⟩).isOk = true) := by
  have hc := Compiler.rmClassify_congr h false List.Forall₂.nil
  refine ⟨hc.1, hc.2, ?_⟩
  have hlen := List.Forall₂.length_eq hc.2
  simp only [Compiler.compileRmV2]
  by_cases he : (Compiler.rmClassify args1 false []).2 = []
  · have he2 : (Compiler.rmClassify args2 false []).2 = [] := by
      apply List.length_eq_zero.mp
      rw [← hlen, he]
      rfl
    simp [he, he2, Except.isOk, Except.toBool]
  · have he2 : (Compiler.rmClassify args2 false []).2 ≠ [] := by
      intro hc2
      apply he
      apply List.length_eq_zero.mp
      rw [hlen, hc2]
      rfl
    simp [he, he2, Except.isOk, Except.toBool]

/-- Claim C7 witness: a glob argument whose execution-time expansion is
the flag-like string `-r` classifies exactly like the unresolved glob —
it stays a path operand and the recursive flag stays false. -/
theorem claim_flags_compile_time_witness :
    (Compiler.rmClassify [Compiler.ExpandedWord.glob "*" []] false []).1 =
      (Compiler.rmClassify [Compiler.ExpandedWord.glob "*" ["-r"]] false []).1
    ∧ Compiler.compileRmV2 ⟨.literal "rm", [.glob "*" ["-r"]], []⟩ =
        .ok (.rm [Compiler.ExpandedWord.glob "*" ["-r"]] false) :=
  ⟨(claim_flags_compile_time (.literal "rm") (.literal "rm") [] []
      [Compiler.ExpandedWord.glob "*" []] [Compiler.ExpandedWord.glob "*" ["-r"]]
      (List.Forall₂.cons (Compiler.Reresolves.glob "*" [] ["-r"]) List.Forall₂.nil)).1,
    rfl⟩

/-- Claim C8: `"foo"bar` lexes as one single word token (classified
`NAME`) whose spelling is `foobar` — the quote characters neither appear
in the value nor end the token — followed only by EOF; converted to an
AST `Word`, it is a single literal part whose `literalValue` is
`foobar`. -/
theorem claim_adjacent_concat :
    (Lexer.tokenize ("\"foo\"bar".toList)).1 =
      [⟨.name, "foobar", ⟨1, 1, 0⟩, ⟨1, 9, 8⟩, ⟨true, false, true, false, false⟩⟩,
       ⟨.eof, "", ⟨1, 9, 8⟩, ⟨1, 9, 8⟩, Lexer.emptyFlags⟩]
    ∧ (ParserAst.wordOfLiteralToken
        ⟨.name, "foobar", ⟨1, 1, 0⟩, ⟨1, 9, 8⟩, ⟨true, false, true, false, false⟩⟩).literalValue
        = some "foobar"
    ∧ (ParserAst.wordOfLiteralToken
        ⟨.name, "foobar", ⟨1, 1, 0⟩, ⟨1, 9, 8⟩, ⟨true, false, true, false, false⟩⟩).parts.length
        = 1 :=
  ⟨rfl, rfl, rfl⟩

/-- Claim C9: compiling `rm -r /tmp/a /tmp/b` yields a remove step with
`recursive = true` and paths exactly `/tmp/a`, `/tmp/b` in order, while
compiling `rm` with no operands fails with the missing-operand
compile-time error. -/
theorem claim_rm_roundtrip :
    Compiler.compileRmV2
        ⟨.literal "rm", [.literal "-r", .literal "/tmp/a", .literal "/tmp/b"], []⟩
      = .ok (.rm [.literal "/tmp/a", .literal "/tmp/b"] true)
    ∧ Compiler.extractPathsFromExpandedWords
        [Compiler.ExpandedWord.literal "/tmp/a", Compiler.ExpandedWord.literal "/tmp/b"]
        = ["/tmp/a", "/tmp/b"]
    ∧ Compiler.compileRmV2 ⟨.literal "rm", [], []⟩
      = .error "rm requires at least one path" :=
  ⟨rfl, rfl, rfl⟩

/-- Claim C10: `touch` never modifies an existing file — every path that
already exists keeps its contents unchanged, every listed path that does
not exist is created with empty content, and paths not listed are
untouched. -/
theorem claim_touch_frame (files : List String) (fs : Vsh.Fs) :
    (∀ p, (fs p).isSome → Vsh.touch files fs p = fs p)
    ∧ (∀ p, p ∈ files → fs p = none → Vsh.touch files fs p = some [])
    ∧ (∀ p, p ∉ files → Vsh.touch files fs p = fs p) :=
  Vsh.touch_spec files fs

/-- Claim C10 witness: touching `/a` (existing, contents preserved) and
`/b` (created empty) over a one-file filesystem, with `/c` untouched. -/
theorem claim_touch_frame_witness :
    Vsh.touch ["/a", "/b"] (fun p => if p = "/a" then some [7] else none) "/a" = some [7]
    ∧ Vsh.touch ["/a", "/b"] (fun p => if p = "/a" then some [7] else none) "/b" = some []
    ∧ Vsh.touch ["/a", "/b"] (fun p => if p = "/a" then some [7] else none) "/c" = none := by
  refine ⟨?_, ?_, ?_⟩
  · have h := (claim_touch_frame ["/a", "/b"]
      (fun p => if p = "/a" then some [7] else none)).1 "/a" (by simp)
    rw [h]
    simp
  · exact (claim_touch_frame ["/a", "/b"]
      (fun p => if p = "/a" then some [7] else none)).2.1 "/b" (by simp) (by simp)
  · have h := (claim_touch_frame ["/a", "/b"]
      (fun p => if p = "/a" then some [7] else none)).2.2 "/c" (by simp)
    rw [h]
    simp

end Shfs
